import Mathlib

/-!
# Verification of the tedis core (`src/core/base.ts`)

This development shallowly embeds the tedis Redis-client core: the RESP wire
codec used through the `Protocol` class (modelled from the specification, since
`src/core/protocol.ts` is not part of the sources under review) and the
pipelining/ordering logic of the `Base` class (`command`, `on`, `auth`, and the
socket event handlers installed by `init`), which is translated directly from
`src/core/base.ts`.

Bytes are modelled as `Char` values and byte strings as `List Char`.
-/

namespace Tedis

/-- The RESP frame terminator, CR LF. -/
def CRLF : List Char := ['\r', '\n']

/-- The decimal digit character for a value `d < 10` (values `≥ 9` clamp to '9',
never reached on digit input). -/
def digitChar : Nat → Char
  | 0 => '0'
  | 1 => '1'
  | 2 => '2'
  | 3 => '3'
  | 4 => '4'
  | 5 => '5'
  | 6 => '6'
  | 7 => '7'
  | 8 => '8'
  | _ => '9'

/-- Numeric value of a decimal digit character. -/
def digitVal (c : Char) : Nat := c.toNat - 48

/-- Whether a character is a decimal digit. -/
def isDigitChar (c : Char) : Bool := decide (48 ≤ c.toNat) && decide (c.toNat ≤ 57)

/-- Fuel-driven decimal rendering; fuel `n + 1` always suffices for `n`. -/
def natDigitsAux : Nat → Nat → List Char
  | 0, _ => []
  | fuel + 1, n =>
    if n < 10 then [digitChar n]
    else natDigitsAux fuel (n / 10) ++ [digitChar (n % 10)]

/-- Decimal rendering of a natural number, most significant digit first. -/
def natDigits (n : Nat) : List Char := natDigitsAux (n + 1) n

/-- Decimal rendering of an integer, with a leading minus sign when negative. -/
def intDigits (n : Int) : List Char :=
  if n < 0 then '-' :: natDigits n.natAbs else natDigits n.toNat

/-- Accumulator-style decimal parsing of a digit string. -/
def parseNatAux : List Char → Nat → Nat
  | [], acc => acc
  | c :: cs, acc => parseNatAux cs (acc * 10 + digitVal c)

/-- Parse a nonempty all-digit string as a natural number. -/
def parseNat (cs : List Char) : Option Nat :=
  if !cs.isEmpty && cs.all isDigitChar then some (parseNatAux cs 0) else none

/-- Parse an optionally minus-signed decimal string as an integer. -/
def parseInt : List Char → Option Int
  | [] => none
  | c :: cs =>
    if c = '-' then (parseNat cs).map (fun n => -(Int.ofNat n))
    else (parseNat (c :: cs)).map (fun n => Int.ofNat n)

/-- After a CR has been seen, the terminator completes only with a LF. -/
def readLineCR : List Char → Option (List Char × List Char)
  | '\n' :: r => some ([], r)
  | _ => none

/-- Scan for the first CR LF terminator, returning the line before it and the
bytes after it; `none` when no complete terminator is buffered yet. -/
def readLine : List Char → Option (List Char × List Char)
  | [] => none
  | c :: rest =>
    if c = '\r' then readLineCR rest
    else (readLine rest).map (fun p => (c :: p.1, p.2))

/-- Consume exactly `n` payload bytes plus the CR LF terminator of a bulk
string; `none` when fewer bytes are buffered. -/
def readBulkPayload (n : Nat) (b : List Char) : Option (List Char × List Char) :=
  match b.drop n with
  | '\r' :: '\n' :: r => some (b.take n, r)
  | _ => none

/-! ## Arithmetic facts about the decimal rendering -/

theorem digitVal_digitChar {d : Nat} (h : d < 10) : digitVal (digitChar d) = d := by
  interval_cases d <;> rfl

theorem isDigitChar_digitChar {d : Nat} (h : d < 10) : isDigitChar (digitChar d) = true := by
  interval_cases d <;> rfl

theorem digitChar_ne_cr {d : Nat} (h : d < 10) : digitChar d ≠ '\r' := by
  interval_cases d <;> decide

theorem digitChar_ne_minus {d : Nat} (h : d < 10) : digitChar d ≠ '-' := by
  interval_cases d <;> decide

theorem natDigitsAux_irrel : ∀ fuel fuel' n, n < fuel → n < fuel' →
    natDigitsAux fuel n = natDigitsAux fuel' n := by
  intro fuel
  induction fuel with
  | zero => intro fuel' n h; omega
  | succ f ih =>
    intro fuel' n h h'
    cases fuel' with
    | zero => omega
    | succ f' =>
      by_cases h10 : n < 10
      · simp [natDigitsAux, h10]
      · have hdiv : n / 10 < n := Nat.div_lt_self (by omega) (by omega)
        simp only [natDigitsAux, if_neg h10]
        rw [ih f' (n / 10) (by omega) (by omega)]

/-- The defining recurrence of `natDigits`, free of fuel. -/
theorem natDigits_eq (n : Nat) :
    natDigits n = if n < 10 then [digitChar n]
      else natDigits (n / 10) ++ [digitChar (n % 10)] := by
  have step : natDigitsAux (n + 1) n =
      if n < 10 then [digitChar n] else natDigitsAux n (n / 10) ++ [digitChar (n % 10)] := rfl
  by_cases h10 : n < 10
  · rw [natDigits, step, if_pos h10, if_pos h10]
  · have hdiv : n / 10 < n := Nat.div_lt_self (by omega) (by omega)
    rw [natDigits, step, if_neg h10, if_neg h10,
      natDigitsAux_irrel n (n / 10 + 1) (n / 10) (by omega) (by omega)]
    rfl

theorem natDigits_ne_nil (n : Nat) : natDigits n ≠ [] := by
  rw [natDigits_eq]
  by_cases h10 : n < 10 <;> simp [h10]

theorem natDigits_all_digits (n : Nat) : ∀ c ∈ natDigits n, isDigitChar c = true := by
  induction n using Nat.strong_induction_on with
  | _ n ih =>
    rw [natDigits_eq]
    by_cases h10 : n < 10
    · simp only [if_pos h10, List.mem_singleton]
      intro c hc; subst hc; exact isDigitChar_digitChar h10
    · have hdiv : n / 10 < n := Nat.div_lt_self (by omega) (by omega)
      simp only [if_neg h10, List.mem_append, List.mem_singleton]
      intro c hc
      rcases hc with hc | hc
      · exact ih (n / 10) hdiv c hc
      · subst hc; exact isDigitChar_digitChar (Nat.mod_lt _ (by omega))

theorem cr_not_mem_natDigits (n : Nat) : '\r' ∉ natDigits n := by
  intro hmem
  have := natDigits_all_digits n '\r' hmem
  simp [isDigitChar] at this

theorem parseNatAux_append (xs : List Char) (c : Char) (a : Nat) :
    parseNatAux (xs ++ [c]) a = 10 * parseNatAux xs a + digitVal c := by
  induction xs generalizing a with
  | nil => simp [parseNatAux]; ring
  | cons x xs ih => simp [parseNatAux, ih]

theorem parseNatAux_natDigits (n : Nat) : parseNatAux (natDigits n) 0 = n := by
  induction n using Nat.strong_induction_on with
  | _ n ih =>
    rw [natDigits_eq]
    by_cases h10 : n < 10
    · simp [if_pos h10, parseNatAux, digitVal_digitChar h10]
    · have hdiv : n / 10 < n := Nat.div_lt_self (by omega) (by omega)
      rw [if_neg h10, parseNatAux_append, ih (n / 10) hdiv,
        digitVal_digitChar (Nat.mod_lt _ (by omega))]
      omega

theorem parseNat_natDigits (n : Nat) : parseNat (natDigits n) = some n := by
  have hne : natDigits n ≠ [] := natDigits_ne_nil n
  have hall : (natDigits n).all isDigitChar = true := by
    rw [List.all_eq_true]; exact natDigits_all_digits n
  simp [parseNat, hall, List.isEmpty_iff, hne, parseNatAux_natDigits]

theorem natDigits_head_not_minus (n : Nat) :
    ∀ c cs, natDigits n = c :: cs → c ≠ '-' := by
  intro c cs hc
  have hmem : c ∈ natDigits n := by rw [hc]; exact List.mem_cons_self _ _
  have := natDigits_all_digits n c hmem
  intro hm; subst hm; simp [isDigitChar] at this

theorem parseInt_natDigits (n : Nat) : parseInt (natDigits n) = some (n : Int) := by
  rcases hd : natDigits n with _ | ⟨c, cs⟩
  · exact absurd hd (natDigits_ne_nil n)
  · have hcm : c ≠ '-' := natDigits_head_not_minus n c cs hd
    have := parseNat_natDigits n
    rw [hd] at this
    simp [parseInt, hcm, this]

theorem parseInt_cons_minus (l : List Char) :
    parseInt ('-' :: l) = (parseNat l).map (fun m => -(Int.ofNat m)) := by
  simp [parseInt]

theorem parseInt_cons_of_ne (c : Char) (l : List Char) (h : c ≠ '-') :
    parseInt (c :: l) = (parseNat (c :: l)).map (fun m => Int.ofNat m) := by
  simp [parseInt, h]

theorem parseInt_intDigits (n : Int) : parseInt (intDigits n) = some n := by
  by_cases hn : n < 0
  · rw [intDigits, if_pos hn, parseInt_cons_minus, parseNat_natDigits]
    simp only [Option.map_some']
    congr 1
    rw [Int.ofNat_eq_coe]
    omega
  · have hge : Int.ofNat n.toNat = n := Int.toNat_of_nonneg (by omega)
    rw [intDigits, if_neg hn]
    rcases hd : natDigits n.toNat with _ | ⟨c, cs⟩
    · exact absurd hd (natDigits_ne_nil _)
    · have hcm : c ≠ '-' := natDigits_head_not_minus _ c cs hd
      have hp := parseNat_natDigits n.toNat
      rw [hd] at hp
      rw [parseInt_cons_of_ne c cs hcm, hp]
      simp only [Option.map_some', hge]

/-! ## Facts about `readLine` and `readBulkPayload` -/

/-- Unfolding `readLine` on a cons cell whose head is not CR. -/
theorem readLine_cons_of_ne (c : Char) (cs : List Char) (h : c ≠ '\r') :
    readLine (c :: cs) = (readLine cs).map (fun p => (c :: p.1, p.2)) := by
  simp only [readLine]
  rw [if_neg h]

theorem readLine_none_of_no_cr (l : List Char) (h : '\r' ∉ l) : readLine l = none := by
  induction l with
  | nil => rfl
  | cons c cs ih =>
    have hc : c ≠ '\r' := fun hcc => h (hcc ▸ List.mem_cons_self _ _)
    have hcs : '\r' ∉ cs := fun hm => h (List.mem_cons_of_mem _ hm)
    rw [readLine_cons_of_ne c cs hc, ih hcs]
    rfl

theorem readLine_cr (rest : List Char) : readLine ('\r' :: rest) = readLineCR rest := by
  simp [readLine]

theorem readLine_append (s r : List Char) (h : '\r' ∉ s) :
    readLine (s ++ '\r' :: '\n' :: r) = some (s, r) := by
  induction s with
  | nil => rw [List.nil_append, readLine_cr]; rfl
  | cons c cs ih =>
    have hc : c ≠ '\r' := fun hcc => h (hcc ▸ List.mem_cons_self _ _)
    have hcs : '\r' ∉ cs := fun hm => h (List.mem_cons_of_mem _ hm)
    rw [List.cons_append, readLine_cons_of_ne c _ hc, ih hcs]
    rfl

theorem readLine_append_cr (s : List Char) (h : '\r' ∉ s) :
    readLine (s ++ ['\r']) = none := by
  induction s with
  | nil => rw [List.nil_append, readLine_cr]; rfl
  | cons c cs ih =>
    have hc : c ≠ '\r' := fun hcc => h (hcc ▸ List.mem_cons_self _ _)
    have hcs : '\r' ∉ cs := fun hm => h (List.mem_cons_of_mem _ hm)
    rw [List.cons_append, readLine_cons_of_ne c _ hc, ih hcs]
    rfl

/-- A strict prefix of `line ++ CRLF` never contains a complete terminator:
the scan comes back empty-handed and the decoder must wait for more bytes. -/
theorem readLine_incomplete (s q : List Char) (h : '\r' ∉ s)
    (hpre : q <+: s ++ CRLF) (hne : q ≠ s ++ CRLF) : readLine q = none := by
  have hq : q = (s ++ CRLF).take q.length := List.prefix_iff_eq_take.mp hpre
  have hlen : q.length ≤ s.length + 2 := by
    have := hpre.length_le
    simpa [CRLF] using this
  have hlt : q.length < s.length + 2 := by
    rcases Nat.lt_or_ge q.length (s.length + 2) with hl | hl
    · exact hl
    · exfalso
      exact hne (hpre.eq_of_length (by simp [CRLF]; omega))
  by_cases hle : q.length ≤ s.length
  · have : q <+: s := by
      rw [hq, List.take_append_eq_append_take, Nat.sub_eq_zero_of_le hle,
        List.take_zero, List.append_nil]
      exact List.take_prefix _ _
    exact readLine_none_of_no_cr q (fun hm => h (this.subset hm))
  · have hql : q.length = s.length + 1 := by omega
    have : q = s ++ ['\r'] := by
      rw [hq, hql, List.take_append_eq_append_take,
        List.take_of_length_le (by omega), Nat.add_sub_cancel_left]
      rfl
    rw [this]
    exact readLine_append_cr s h

/-! ## Facts about `readBulkPayload` -/

theorem readBulkPayload_append (s r : List Char) :
    readBulkPayload s.length (s ++ '\r' :: '\n' :: r) = some (s, r) := by
  unfold readBulkPayload
  rw [show (s ++ '\r' :: '\n' :: r).drop s.length = '\r' :: '\n' :: r from
    List.drop_left s _, List.take_left]
  rfl

theorem readBulkPayload_short (n : Nat) (b : List Char) (h : b.length < n + 2) :
    readBulkPayload n b = none := by
  have hlen : (b.drop n).length < 2 := by
    rw [List.length_drop]
    omega
  unfold readBulkPayload
  split
  · rename_i r heq
    exfalso
    rw [heq] at hlen
    simp at hlen
    omega
  · rfl

/-! ## The wire message data model

Modelled from the spec: the `WireMessage` variants decoded by the `Protocol`
class (`src/core/protocol.ts`, not present under the reviewed sources):
simple strings, error strings, signed integers, bulk strings with a null
marker, and arrays with a null marker, recursively. -/

inductive Msg where
  | simple (s : List Char)
  | error (s : List Char)
  | integer (n : Int)
  | bulk (s : List Char)
  | bulkNull
  | array (xs : List Msg)
  | arrayNull

/-- Whether a reply is the `Error` variant. -/
def Msg.isError : Msg → Bool
  | .error _ => true
  | _ => false

mutual
/-- Modelled from the spec: the reply serialization (`serialize(WireMessage)`)
of the RESP wire format — `+`/`-`/`:` lines, `$`-length-prefixed bulk strings
with `$-1` as the null marker, `*`-counted arrays with `*-1` as the null
marker. -/
def encodeMsg : Msg → List Char
  | .simple s => '+' :: (s ++ CRLF)
  | .error s => '-' :: (s ++ CRLF)
  | .integer n => ':' :: (intDigits n ++ CRLF)
  | .bulk s => '$' :: (natDigits s.length ++ CRLF ++ s ++ CRLF)
  | .bulkNull => '$' :: ('-' :: '1' :: CRLF)
  | .array xs => '*' :: (natDigits xs.length ++ CRLF ++ encodeList xs)
  | .arrayNull => '*' :: ('-' :: '1' :: CRLF)

/-- Concatenated encodings of a sequence of replies. -/
def encodeList : List Msg → List Char
  | [] => []
  | m :: ms => encodeMsg m ++ encodeList ms
end

mutual
/-- Protocol-validity of one reply: `Simple` and `Error` payloads carry no CR
(they are single lines terminated by the frame terminator). -/
def validMsg : Msg → Bool
  | .simple s => !s.contains '\r'
  | .error s => !s.contains '\r'
  | .integer _ => true
  | .bulk _ => true
  | .bulkNull => true
  | .array xs => validList xs
  | .arrayNull => true

/-- Protocol-validity of every reply in a sequence. -/
def validList : List Msg → Bool
  | [] => true
  | m :: ms => validMsg m && validList ms
end

mutual
/-- Recursion fuel sufficient to decode one message. -/
def fuelMsg : Msg → Nat
  | .array xs => 1 + fuelList xs
  | _ => 1

/-- Recursion fuel sufficient to decode a sequence of messages. -/
def fuelList : List Msg → Nat
  | [] => 0
  | m :: ms => 1 + fuelMsg m + fuelList ms
end

/-- Decode exactly `k` consecutive messages using the supplied single-message
decoder, threading the unconsumed tail. -/
def decodeCount (dec : List Char → Option (Msg × List Char)) :
    Nat → List Char → Option (List Msg × List Char)
  | 0, b => some ([], b)
  | k + 1, b =>
    (dec b).bind fun p =>
      (decodeCount dec k p.2).map fun q => (p.1 :: q.1, q.2)

/-- Modelled from the spec: decode one complete reply off the front of the
buffer — first byte selects the variant; lines/lengths/counts are read up to
the frame terminator; negative bulk lengths and array counts are the null
markers; arrays recurse; `none` when the buffered bytes do not complete a
message. `fuel` bounds the recursion depth of nested arrays. -/
def decodeMsg : Nat → List Char → Option (Msg × List Char)
  | 0, _ => none
  | _ + 1, [] => none
  | f + 1, c :: b =>
    if c = '+' then (readLine b).map fun p => (.simple p.1, p.2)
    else if c = '-' then (readLine b).map fun p => (.error p.1, p.2)
    else if c = ':' then
      (readLine b).bind fun p => (parseInt p.1).map fun n => (.integer n, p.2)
    else if c = '$' then
      (readLine b).bind fun p => (parseInt p.1).bind fun n =>
        if n < 0 then some (.bulkNull, p.2)
        else (readBulkPayload n.toNat p.2).map fun q => (.bulk q.1, q.2)
    else if c = '*' then
      (readLine b).bind fun p => (parseInt p.1).bind fun n =>
        if n < 0 then some (.arrayNull, p.2)
        else (decodeCount (decodeMsg f) n.toNat p.2).map fun q => (.array q.1, q.2)
    else none

/-- Decode `k` consecutive messages at recursion-depth fuel `f`. -/
def decodeList (f k : Nat) (b : List Char) : Option (List Msg × List Char) :=
  decodeCount (decodeMsg f) k b

example : decodeMsg 1 ('+' :: 'O' :: 'K' :: '\r' :: '\n' :: []) =
    some (.simple ['O', 'K'], []) := rfl
example : decodeMsg 1 (':' :: '-' :: '5' :: '\r' :: '\n' :: 'x' :: []) =
    some (.integer (-5), ['x']) := rfl
example : decodeMsg 1 ('$' :: '-' :: '1' :: '\r' :: '\n' :: []) = some (.bulkNull, []) := rfl
example : decodeMsg 2 ('*' :: '1' :: '\r' :: '\n' :: '+' :: '\r' :: '\n' :: []) =
    some (.array [.simple []], []) := rfl
example : decodeMsg 9 ('$' :: '2' :: '\r' :: '\n' :: 'h' :: 'i' :: '\r' :: '\n' :: []) =
    some (.bulk ['h', 'i'], []) := rfl
example : decodeMsg 9 ('+' :: 'O' :: 'K' :: '\r' :: []) = none := rfl

/-! ## Decoder unfolding lemmas -/

theorem decodeMsg_zero (b : List Char) : decodeMsg 0 b = none := rfl

theorem decodeMsg_nil (f : Nat) : decodeMsg f [] = none := by
  cases f <;> rfl

theorem decodeMsg_cons (f : Nat) (c : Char) (b : List Char) :
    decodeMsg (f + 1) (c :: b) =
    (if c = '+' then (readLine b).map fun p => (.simple p.1, p.2)
    else if c = '-' then (readLine b).map fun p => (.error p.1, p.2)
    else if c = ':' then
      (readLine b).bind fun p => (parseInt p.1).map fun n => (.integer n, p.2)
    else if c = '$' then
      (readLine b).bind fun p => (parseInt p.1).bind fun n =>
        if n < 0 then some (.bulkNull, p.2)
        else (readBulkPayload n.toNat p.2).map fun q => (.bulk q.1, q.2)
    else if c = '*' then
      (readLine b).bind fun p => (parseInt p.1).bind fun n =>
        if n < 0 then some (.arrayNull, p.2)
        else (decodeCount (decodeMsg f) n.toNat p.2).map fun q => (.array q.1, q.2)
    else none) := rfl

theorem decodeCount_zero (dec : List Char → Option (Msg × List Char)) (b : List Char) :
    decodeCount dec 0 b = some ([], b) := rfl

theorem decodeCount_succ (dec : List Char → Option (Msg × List Char)) (k : Nat)
    (b : List Char) :
    decodeCount dec (k + 1) b =
    ((dec b).bind fun p =>
      (decodeCount dec k p.2).map fun q => (p.1 :: q.1, q.2)) := rfl

/-! ## Fuel monotonicity: more fuel never changes a successful decode -/

theorem decode_mono : ∀ f,
    (∀ b x, decodeMsg f b = some x → decodeMsg (f + 1) b = some x) ∧
    (∀ k b y, decodeCount (decodeMsg f) k b = some y →
      decodeCount (decodeMsg (f + 1)) k b = some y) := by
  intro f
  induction f with
  | zero =>
    constructor
    · intro b x h
      rw [decodeMsg_zero] at h
      cases h
    · intro k b y h
      cases k with
      | zero => exact h
      | succ k =>
        rw [decodeCount_succ, decodeMsg_zero] at h
        simp at h
  | succ f ih =>
    have hm : ∀ b x, decodeMsg (f + 1) b = some x → decodeMsg (f + 2) b = some x := by
      intro b x h
      cases b with
      | nil => rw [decodeMsg_nil] at h; cases h
      | cons c b =>
        rw [decodeMsg_cons] at h
        rw [decodeMsg_cons]
        split_ifs at h ⊢
        case pos => exact h
        case pos => exact h
        case pos => exact h
        case pos => exact h
        case pos =>
          rcases hr : readLine b with _ | ⟨line, r⟩
          · simp only [hr, Option.none_bind] at h
            cases h
          · simp only [hr, Option.some_bind] at h
            rcases hp : parseInt line with _ | n
            · simp only [hp, Option.none_bind] at h
              cases h
            · simp only [hp, Option.some_bind] at h
              simp only [Option.some_bind, hp]
              by_cases hn : n < 0
              · rw [if_pos hn] at h
                rw [if_pos hn]
                exact h
              · rw [if_neg hn] at h
                rw [if_neg hn]
                rcases hd : decodeCount (decodeMsg f) n.toNat r with _ | ⟨xs, r2⟩
                · simp only [hd, Option.map_none'] at h
                  cases h
                · simp only [hd, Option.map_some'] at h
                  simp only [ih.2 n.toNat r (xs, r2) hd, Option.map_some']
                  exact h
    refine ⟨hm, ?_⟩
    intro k
    induction k with
    | zero => intro b y h; exact h
    | succ k ihk =>
      intro b y h
      rw [decodeCount_succ] at h
      rw [decodeCount_succ]
      rcases hd : decodeMsg (f + 1) b with _ | ⟨m, r⟩
      · simp only [hd, Option.none_bind] at h
        cases h
      · simp only [hd, Option.some_bind] at h
        simp only [hm b (m, r) hd, Option.some_bind]
        rcases hd2 : decodeCount (decodeMsg (f + 1)) k r with _ | ⟨xs, r2⟩
        · simp only [hd2, Option.map_none'] at h
          cases h
        · simp only [hd2, Option.map_some'] at h
          simp only [ihk r (xs, r2) hd2, Option.map_some']
          exact h

theorem decodeMsg_mono_le {f g : Nat} (hfg : f ≤ g) :
    ∀ b x, decodeMsg f b = some x → decodeMsg g b = some x := by
  induction g with
  | zero =>
    intro b x h
    have : f = 0 := by omega
    subst this
    exact h
  | succ g ihg =>
    intro b x h
    rcases Nat.lt_or_ge f (g + 1) with hlt | hge
    · exact (decode_mono g).1 b x (ihg (by omega) b x h)
    · have : f = g + 1 := by omega
      subst this
      exact h

theorem decodeCount_mono_le {f g : Nat} (hfg : f ≤ g) :
    ∀ k b y, decodeCount (decodeMsg f) k b = some y →
      decodeCount (decodeMsg g) k b = some y := by
  induction g with
  | zero =>
    intro k b y h
    have : f = 0 := by omega
    subst this
    exact h
  | succ g ihg =>
    intro k b y h
    rcases Nat.lt_or_ge f (g + 1) with hlt | hge
    · exact (decode_mono g).2 k b y (ihg (by omega) k b y h)
    · have : f = g + 1 := by omega
      subst this
      exact h

/-- Fuel-indexed decoding is deterministic across fuel values. -/
theorem decodeMsg_det {f g : Nat} {b : List Char} {x y : Msg × List Char}
    (hx : decodeMsg f b = some x) (hy : decodeMsg g b = some y) : x = y := by
  have h1 := decodeMsg_mono_le (Nat.le_max_left f g) b x hx
  have h2 := decodeMsg_mono_le (Nat.le_max_right f g) b y hy
  rw [h1] at h2
  exact Option.some.inj h2

/-! ## Per-discriminator unfolding of the decoder -/

theorem decodeMsg_plus (f : Nat) (b : List Char) :
    decodeMsg (f + 1) ('+' :: b) =
      (readLine b).map fun p => (Msg.simple p.1, p.2) := rfl

theorem decodeMsg_minus (f : Nat) (b : List Char) :
    decodeMsg (f + 1) ('-' :: b) =
      (readLine b).map fun p => (Msg.error p.1, p.2) := rfl

theorem decodeMsg_colon (f : Nat) (b : List Char) :
    decodeMsg (f + 1) (':' :: b) =
      ((readLine b).bind fun p => (parseInt p.1).map fun n => (Msg.integer n, p.2)) := rfl

theorem decodeMsg_dollar (f : Nat) (b : List Char) :
    decodeMsg (f + 1) ('$' :: b) =
      ((readLine b).bind fun p => (parseInt p.1).bind fun n =>
        if n < 0 then some (Msg.bulkNull, p.2)
        else (readBulkPayload n.toNat p.2).map fun q => (Msg.bulk q.1, q.2)) := rfl

theorem decodeMsg_star (f : Nat) (b : List Char) :
    decodeMsg (f + 1) ('*' :: b) =
      ((readLine b).bind fun p => (parseInt p.1).bind fun n =>
        if n < 0 then some (Msg.arrayNull, p.2)
        else (decodeCount (decodeMsg f) n.toNat p.2).map fun q => (Msg.array q.1, q.2)) := rfl

/-! ## Auxiliary facts for the roundtrip proof -/

theorem cr_not_mem_intDigits (n : Int) : '\r' ∉ intDigits n := by
  unfold intDigits
  by_cases hn : n < 0
  · rw [if_pos hn]
    intro hm
    rcases List.mem_cons.mp hm with hm | hm
    · cases hm
    · exact cr_not_mem_natDigits _ hm
  · rw [if_neg hn]
    exact cr_not_mem_natDigits _

theorem fuelMsg_pos (m : Msg) : 1 ≤ fuelMsg m := by
  cases m <;> simp [fuelMsg]

theorem not_mem_of_not_contains {s : List Char} {c : Char}
    (hv : (!s.contains c) = true) : c ∉ s := by
  simp at hv
  exact hv

/-! ## Roundtrip: decoding the encoding of a valid reply succeeds and
consumes exactly the encoded bytes -/

theorem decode_encode : ∀ f,
    (∀ m r, validMsg m = true → fuelMsg m ≤ f →
      decodeMsg f (encodeMsg m ++ r) = some (m, r)) ∧
    (∀ ms r, validList ms = true → fuelList ms ≤ f →
      decodeCount (decodeMsg f) ms.length (encodeList ms ++ r) = some (ms, r)) := by
  intro f
  induction f with
  | zero =>
    constructor
    · intro m r hv hf
      have := fuelMsg_pos m
      omega
    · intro ms r hv hf
      cases ms with
      | nil =>
        rw [show encodeList [] = [] from rfl, List.nil_append, List.length_nil,
          decodeCount_zero]
      | cons m ms =>
        rw [show fuelList (m :: ms) = 1 + fuelMsg m + fuelList ms from rfl] at hf
        omega
  | succ f ih =>
    have hmsg : ∀ m r, validMsg m = true → fuelMsg m ≤ f + 1 →
        decodeMsg (f + 1) (encodeMsg m ++ r) = some (m, r) := by
      intro m r hv hf
      cases m with
      | simple s =>
        have hcr : '\r' ∉ s := not_mem_of_not_contains hv
        rw [show encodeMsg (.simple s) ++ r = '+' :: (s ++ ('\r' :: '\n' :: r)) by
          simp [encodeMsg, CRLF]]
        rw [decodeMsg_plus, readLine_append s r hcr, Option.map_some']
      | error s =>
        have hcr : '\r' ∉ s := not_mem_of_not_contains hv
        rw [show encodeMsg (.error s) ++ r = '-' :: (s ++ ('\r' :: '\n' :: r)) by
          simp [encodeMsg, CRLF]]
        rw [decodeMsg_minus, readLine_append s r hcr, Option.map_some']
      | integer n =>
        rw [show encodeMsg (.integer n) ++ r = ':' :: (intDigits n ++ ('\r' :: '\n' :: r)) by
          simp [encodeMsg, CRLF]]
        rw [decodeMsg_colon, readLine_append _ r (cr_not_mem_intDigits n),
          Option.some_bind]
        simp only [parseInt_intDigits, Option.map_some']
      | bulk s =>
        rw [show encodeMsg (.bulk s) ++ r =
            '$' :: (natDigits s.length ++ ('\r' :: '\n' :: (s ++ ('\r' :: '\n' :: r)))) by
          simp [encodeMsg, CRLF]]
        rw [decodeMsg_dollar, readLine_append _ _ (cr_not_mem_natDigits s.length),
          Option.some_bind]
        simp only [parseInt_natDigits, Option.some_bind]
        rw [if_neg (by omega)]
        rw [show ((s.length : Int)).toNat = s.length from rfl]
        rw [readBulkPayload_append s _, Option.map_some']
      | bulkNull =>
        rw [show encodeMsg .bulkNull ++ r =
            '$' :: (['-', '1'] ++ ('\r' :: '\n' :: r)) by simp [encodeMsg, CRLF]]
        rw [decodeMsg_dollar, readLine_append _ _ (by decide), Option.some_bind]
        rw [show parseInt ['-', '1'] = some (-1) from rfl, Option.some_bind,
          if_pos (by omega)]
      | arrayNull =>
        rw [show encodeMsg .arrayNull ++ r =
            '*' :: (['-', '1'] ++ ('\r' :: '\n' :: r)) by simp [encodeMsg, CRLF]]
        rw [decodeMsg_star, readLine_append _ _ (by decide), Option.some_bind]
        rw [show parseInt ['-', '1'] = some (-1) from rfl, Option.some_bind,
          if_pos (by omega)]
      | array xs =>
        have hvx : validList xs = true := by
          rw [show validMsg (.array xs) = validList xs from rfl] at hv
          exact hv
        have hfx : fuelList xs ≤ f := by
          rw [show fuelMsg (.array xs) = 1 + fuelList xs from rfl] at hf
          omega
        rw [show encodeMsg (.array xs) ++ r =
            '*' :: (natDigits xs.length ++ ('\r' :: '\n' :: (encodeList xs ++ r))) by
          simp [encodeMsg, CRLF]]
        rw [decodeMsg_star, readLine_append _ _ (cr_not_mem_natDigits xs.length),
          Option.some_bind]
        simp only [parseInt_natDigits, Option.some_bind]
        rw [if_neg (by omega)]
        rw [show ((xs.length : Int)).toNat = xs.length from rfl]
        rw [ih.2 xs r hvx hfx, Option.map_some']
    refine ⟨hmsg, ?_⟩
    intro ms
    induction ms with
    | nil =>
      intro r hv hf
      rw [show encodeList [] = [] from rfl, List.nil_append, List.length_nil,
        decodeCount_zero]
    | cons m ms ihms =>
      intro r hv hf
      have hvm : validMsg m = true := by
        rw [show validList (m :: ms) = (validMsg m && validList ms) from rfl] at hv
        exact ((Bool.and_eq_true _ _).mp hv).1
      have hvs : validList ms = true := by
        rw [show validList (m :: ms) = (validMsg m && validList ms) from rfl] at hv
        exact ((Bool.and_eq_true _ _).mp hv).2
      have hfm : fuelMsg m ≤ f + 1 := by
        rw [show fuelList (m :: ms) = 1 + fuelMsg m + fuelList ms from rfl] at hf
        omega
      have hfs : fuelList ms ≤ f + 1 := by
        rw [show fuelList (m :: ms) = 1 + fuelMsg m + fuelList ms from rfl] at hf
        omega
      rw [show encodeList (m :: ms) ++ r = encodeMsg m ++ (encodeList ms ++ r) by
        simp [encodeList]]
      rw [List.length_cons, decodeCount_succ, hmsg m _ hvm hfm, Option.some_bind,
        ihms _ hvs hfs, Option.map_some']

/-- A prefix of `a ++ b` either covers all of `a` with a prefix of `b` left
over, or is a strict prefix of `a`. -/
theorem prefix_append_cases : ∀ (a q b : List Char), q <+: a ++ b →
    (∃ q2, q = a ++ q2 ∧ q2 <+: b) ∨ (q <+: a ∧ q ≠ a) := by
  intro a
  induction a with
  | nil =>
    intro q b h
    exact Or.inl ⟨q, rfl, by simpa using h⟩
  | cons x a iha =>
    intro q b h
    rcases q with _ | ⟨y, q⟩
    · exact Or.inr ⟨List.nil_prefix, by simp⟩
    · obtain ⟨hy, hq⟩ := List.cons_prefix_cons.mp (by simpa using h)
      subst hy
      rcases iha q b hq with ⟨q2, hq2, hpre2⟩ | ⟨hpre2, hne2⟩
      · exact Or.inl ⟨q2, by rw [hq2]; rfl, hpre2⟩
      · refine Or.inr ⟨List.cons_prefix_cons.mpr ⟨rfl, hpre2⟩, fun hh => hne2 ?_⟩
        injection hh

theorem CRLF_cons (r : List Char) : CRLF ++ r = '\r' :: '\n' :: r := rfl

/-! ## Incompleteness: a strict prefix of an encoding never decodes -/

theorem decode_incomplete : ∀ f,
    (∀ m p, validMsg m = true → p <+: encodeMsg m → p ≠ encodeMsg m →
      decodeMsg f p = none) ∧
    (∀ ms q, validList ms = true → q <+: encodeList ms → q ≠ encodeList ms →
      decodeCount (decodeMsg f) ms.length q = none) := by
  intro f
  induction f with
  | zero =>
    constructor
    · intro m p _ _ _
      exact decodeMsg_zero p
    · intro ms q hv hpre hne
      cases ms with
      | nil => exact absurd (List.prefix_nil.mp hpre) hne
      | cons m ms =>
        rw [List.length_cons, decodeCount_succ, decodeMsg_zero, Option.none_bind]
  | succ f ih =>
    have hmsgB : ∀ m p, validMsg m = true → p <+: encodeMsg m → p ≠ encodeMsg m →
        decodeMsg (f + 1) p = none := by
      intro m p hv hpre hne
      rcases p with _ | ⟨c, q⟩
      · exact decodeMsg_nil _
      · cases m with
        | simple s =>
          have hcr : '\r' ∉ s := not_mem_of_not_contains hv
          rw [show encodeMsg (.simple s) = '+' :: (s ++ CRLF) from rfl] at hpre hne
          obtain ⟨hc, hq⟩ := List.cons_prefix_cons.mp hpre
          subst hc
          have hqne : q ≠ s ++ CRLF := fun hh => hne (by rw [hh])
          rw [decodeMsg_plus, readLine_incomplete s q hcr hq hqne, Option.map_none']
        | error s =>
          have hcr : '\r' ∉ s := not_mem_of_not_contains hv
          rw [show encodeMsg (.error s) = '-' :: (s ++ CRLF) from rfl] at hpre hne
          obtain ⟨hc, hq⟩ := List.cons_prefix_cons.mp hpre
          subst hc
          have hqne : q ≠ s ++ CRLF := fun hh => hne (by rw [hh])
          rw [decodeMsg_minus, readLine_incomplete s q hcr hq hqne, Option.map_none']
        | integer n =>
          rw [show encodeMsg (.integer n) = ':' :: (intDigits n ++ CRLF) from rfl]
            at hpre hne
          obtain ⟨hc, hq⟩ := List.cons_prefix_cons.mp hpre
          subst hc
          have hqne : q ≠ intDigits n ++ CRLF := fun hh => hne (by rw [hh])
          rw [decodeMsg_colon,
            readLine_incomplete _ q (cr_not_mem_intDigits n) hq hqne, Option.none_bind]
        | bulk s =>
          rw [show encodeMsg (.bulk s) =
              '$' :: ((natDigits s.length ++ CRLF) ++ (s ++ CRLF)) by
            simp [encodeMsg]] at hpre hne
          obtain ⟨hc, hq⟩ := List.cons_prefix_cons.mp hpre
          subst hc
          have hqne : q ≠ (natDigits s.length ++ CRLF) ++ (s ++ CRLF) :=
            fun hh => hne (by rw [hh])
          rw [decodeMsg_dollar]
          rcases prefix_append_cases _ q _ hq with ⟨q2, hq2, hpre2⟩ | ⟨hpre2, hne2⟩
          · have hq2ne : q2 ≠ s ++ CRLF := by
              intro hh
              exact hqne (by rw [hq2, hh])
            have hlen : q2.length < s.length + 2 := by
              have h1 := hpre2.length_le
              simp only [List.length_append, CRLF, List.length_cons,
                List.length_nil] at h1
              rcases Nat.lt_or_ge q2.length (s.length + 2) with hl | hl
              · exact hl
              · exact absurd (hpre2.eq_of_length (by simp [CRLF]; omega)) hq2ne
            rw [hq2, List.append_assoc, CRLF_cons,
              readLine_append _ _ (cr_not_mem_natDigits _), Option.some_bind]
            simp only [parseInt_natDigits, Option.some_bind]
            rw [if_neg (by omega), show ((s.length : Int)).toNat = s.length from rfl,
              readBulkPayload_short s.length q2 hlen, Option.map_none']
          · rw [readLine_incomplete _ q (cr_not_mem_natDigits s.length) hpre2 hne2,
              Option.none_bind]
        | bulkNull =>
          rw [show encodeMsg .bulkNull = '$' :: (['-', '1'] ++ CRLF) from rfl]
            at hpre hne
          obtain ⟨hc, hq⟩ := List.cons_prefix_cons.mp hpre
          subst hc
          have hqne : q ≠ ['-', '1'] ++ CRLF := fun hh => hne (by rw [hh])
          rw [decodeMsg_dollar, readLine_incomplete _ q (by decide) hq hqne,
            Option.none_bind]
        | arrayNull =>
          rw [show encodeMsg .arrayNull = '*' :: (['-', '1'] ++ CRLF) from rfl]
            at hpre hne
          obtain ⟨hc, hq⟩ := List.cons_prefix_cons.mp hpre
          subst hc
          have hqne : q ≠ ['-', '1'] ++ CRLF := fun hh => hne (by rw [hh])
          rw [decodeMsg_star, readLine_incomplete _ q (by decide) hq hqne,
            Option.none_bind]
        | array xs =>
          have hvx : validList xs = true := by
            rw [show validMsg (.array xs) = validList xs from rfl] at hv
            exact hv
          rw [show encodeMsg (.array xs) =
              '*' :: ((natDigits xs.length ++ CRLF) ++ encodeList xs) by
            simp [encodeMsg]] at hpre hne
          obtain ⟨hc, hq⟩ := List.cons_prefix_cons.mp hpre
          subst hc
          have hqne : q ≠ (natDigits xs.length ++ CRLF) ++ encodeList xs :=
            fun hh => hne (by rw [hh])
          rw [decodeMsg_star]
          rcases prefix_append_cases _ q _ hq with ⟨q2, hq2, hpre2⟩ | ⟨hpre2, hne2⟩
          · have hq2ne : q2 ≠ encodeList xs := by
              intro hh
              exact hqne (by rw [hq2, hh])
            rw [hq2, List.append_assoc, CRLF_cons,
              readLine_append _ _ (cr_not_mem_natDigits _), Option.some_bind]
            simp only [parseInt_natDigits, Option.some_bind]
            rw [if_neg (by omega), show ((xs.length : Int)).toNat = xs.length from rfl,
              ih.2 xs q2 hvx hpre2 hq2ne, Option.map_none']
          · rw [readLine_incomplete _ q (cr_not_mem_natDigits xs.length) hpre2 hne2,
              Option.none_bind]
    refine ⟨hmsgB, ?_⟩
    intro ms
    induction ms with
    | nil =>
      intro q hv hpre hne
      exact absurd (List.prefix_nil.mp hpre) hne
    | cons m ms ihms =>
      intro q hv hpre hne
      have hvm : validMsg m = true := by
        rw [show validList (m :: ms) = (validMsg m && validList ms) from rfl] at hv
        exact ((Bool.and_eq_true _ _).mp hv).1
      have hvs : validList ms = true := by
        rw [show validList (m :: ms) = (validMsg m && validList ms) from rfl] at hv
        exact ((Bool.and_eq_true _ _).mp hv).2
      rw [show encodeList (m :: ms) = encodeMsg m ++ encodeList ms from rfl]
        at hpre hne
      rw [List.length_cons, decodeCount_succ]
      rcases prefix_append_cases _ q _ hpre with ⟨q2, hq2, hpre2⟩ | ⟨hpre2, hne2⟩
      · have hq2ne : q2 ≠ encodeList ms := by
          intro hh
          exact hne (by rw [hq2, hh])
        subst hq2
        rcases hd : decodeMsg (f + 1) (encodeMsg m ++ q2) with _ | ⟨m', r'⟩
        · rw [Option.none_bind]
        · have hd2 : decodeMsg (fuelMsg m) (encodeMsg m ++ q2) = some (m, q2) :=
            (decode_encode (fuelMsg m)).1 m q2 hvm (Nat.le_refl _)
          have : (m', r') = (m, q2) := decodeMsg_det hd hd2
          cases this
          rw [Option.some_bind, ihms q2 hvs hpre2 hq2ne, Option.map_none']
      · rw [hmsgB m q hvm hpre2 hne2, Option.none_bind]

/-! ## Length bounds linking fuel to encoded size -/

theorem encodeMsg_length_pos (m : Msg) : 0 < (encodeMsg m).length := by
  cases m <;> simp [encodeMsg]

theorem encodeList_length_ge (ms : List Msg) : ms.length ≤ (encodeList ms).length := by
  induction ms with
  | nil => simp [encodeList]
  | cons m ms ih =>
    have := encodeMsg_length_pos m
    simp only [encodeList, List.length_append, List.length_cons]
    omega

theorem natDigits_length_pos (n : Nat) : 0 < (natDigits n).length := by
  have := natDigits_ne_nil n
  cases hd : natDigits n with
  | nil => exact absurd hd this
  | cons c cs => simp

mutual
theorem fuelMsg_lt_encode (m : Msg) : fuelMsg m < (encodeMsg m).length := by
  cases m with
  | simple s => simp [fuelMsg, encodeMsg, CRLF]
  | error s => simp [fuelMsg, encodeMsg, CRLF]
  | integer n => simp [fuelMsg, encodeMsg, CRLF]
  | bulk s => simp [fuelMsg, encodeMsg, CRLF]
  | bulkNull => simp [fuelMsg, encodeMsg, CRLF]
  | arrayNull => simp [fuelMsg, encodeMsg, CRLF]
  | array xs =>
    have h1 := fuelList_le_encode xs
    have h2 := natDigits_length_pos xs.length
    simp only [fuelMsg, encodeMsg, List.length_cons, List.length_append, CRLF]
    simp only [List.length_cons, List.length_nil]
    omega

theorem fuelList_le_encode (ms : List Msg) : fuelList ms ≤ (encodeList ms).length := by
  cases ms with
  | nil => simp [fuelList, encodeList]
  | cons m ms =>
    have h1 := fuelMsg_lt_encode m
    have h2 := fuelList_le_encode ms
    simp only [fuelList, encodeList, List.length_append]
    omega
end

/-! ## The `Protocol` decoder object

Modelled from the spec: the stateful incremental parser owning an accumulating
byte buffer, with `write` (append bytes, no parsing) and `parse` (drain all
complete messages, returning them in order and keeping the unconsumed suffix
buffered). -/

structure Protocol where
  buffer : List Char

/-- `Protocol.write(bytes)`: append raw bytes to the internal buffer. -/
def Protocol.write (p : Protocol) (data : List Char) : Protocol :=
  ⟨p.buffer ++ data⟩

/-- Drain loop: repeatedly decode one message off the buffer until the
remaining bytes do not complete one; `f` bounds the number of iterations. -/
def parseAux : Nat → List Char → List Msg × List Char
  | 0, b => ([], b)
  | f + 1, b =>
    (decodeMsg (b.length + 1) b).elim ([], b)
      fun x => (x.1 :: (parseAux f x.2).1, (parseAux f x.2).2)

/-- `Protocol.parse()`: extract all complete messages, consuming exactly their
bytes and leaving any incomplete trailing message buffered. -/
def Protocol.parse (p : Protocol) : List Msg × Protocol :=
  ((parseAux (p.buffer.length + 1) p.buffer).1, ⟨(parseAux (p.buffer.length + 1) p.buffer).2⟩)

/-- The buffered bytes do not complete any message: either empty, or a strict
prefix of the encoding of some valid reply. -/
def Incomplete (p : List Char) : Prop :=
  p = [] ∨ ∃ m, validMsg m = true ∧ p <+: encodeMsg m ∧ p ≠ encodeMsg m

theorem decodeMsg_of_incomplete {p : List Char} (h : Incomplete p) (f : Nat) :
    decodeMsg f p = none := by
  rcases h with rfl | ⟨m, hv, hpre, hne⟩
  · exact decodeMsg_nil f
  · exact (decode_incomplete f).1 m p hv hpre hne

theorem parseAux_zero (b : List Char) : parseAux 0 b = ([], b) := rfl

theorem parseAux_succ (f : Nat) (b : List Char) :
    parseAux (f + 1) b =
      (decodeMsg (b.length + 1) b).elim ([], b)
        (fun x => (x.1 :: (parseAux f x.2).1, (parseAux f x.2).2)) := rfl

/-- Draining a buffer holding the encodings of `ms` followed by incomplete
bytes yields exactly `ms` and leaves exactly the incomplete bytes. -/
theorem parseAux_drain : ∀ (ms : List Msg) (p : List Char) (F : Nat),
    validList ms = true → Incomplete p → ms.length < F →
    parseAux F (encodeList ms ++ p) = (ms, p) := by
  intro ms
  induction ms with
  | nil =>
    intro p F hv hinc hF
    cases F with
    | zero => omega
    | succ F =>
      rw [show encodeList [] ++ p = p from by simp [encodeList], parseAux_succ,
        decodeMsg_of_incomplete hinc _, Option.elim_none]
  | cons m ms ihms =>
    intro p F hv hinc hF
    cases F with
    | zero => omega
    | succ F =>
      have hvm : validMsg m = true := by
        rw [show validList (m :: ms) = (validMsg m && validList ms) from rfl] at hv
        exact ((Bool.and_eq_true _ _).mp hv).1
      have hvs : validList ms = true := by
        rw [show validList (m :: ms) = (validMsg m && validList ms) from rfl] at hv
        exact ((Bool.and_eq_true _ _).mp hv).2
      have hb : encodeList (m :: ms) ++ p = encodeMsg m ++ (encodeList ms ++ p) := by
        simp [encodeList]
      rw [hb, parseAux_succ]
      have hfuel : fuelMsg m ≤ (encodeMsg m ++ (encodeList ms ++ p)).length + 1 := by
        have h1 := fuelMsg_lt_encode m
        simp only [List.length_append]
        omega
      have hd : decodeMsg ((encodeMsg m ++ (encodeList ms ++ p)).length + 1)
          (encodeMsg m ++ (encodeList ms ++ p)) = some (m, encodeList ms ++ p) :=
        decodeMsg_mono_le hfuel _ _
          ((decode_encode (fuelMsg m)).1 m _ hvm (Nat.le_refl _))
      rw [hd, Option.elim_some]
      have hrec := ihms p F hvs hinc (by simp at hF; omega)
      rw [hrec]

/-- Any prefix of an encoded reply stream splits as whole encoded replies
followed by an incomplete remainder. -/
theorem encodeList_prefix_decomp : ∀ (ms : List Msg) (q : List Char),
    validList ms = true → q <+: encodeList ms →
    ∃ ms1 ms2 p, ms = ms1 ++ ms2 ∧ q = encodeList ms1 ++ p ∧
      ((ms2 = [] ∧ p = []) ∨
        (∃ m t, ms2 = m :: t ∧ p <+: encodeMsg m ∧ p ≠ encodeMsg m)) := by
  intro ms
  induction ms with
  | nil =>
    intro q hv hq
    have hq' : q = [] := List.prefix_nil.mp (by simpa [encodeList] using hq)
    subst hq'
    exact ⟨[], [], [], rfl, by simp [encodeList], Or.inl ⟨rfl, rfl⟩⟩
  | cons m ms ihms =>
    intro q hv hq
    have hvs : validList ms = true := by
      rw [show validList (m :: ms) = (validMsg m && validList ms) from rfl] at hv
      exact ((Bool.and_eq_true _ _).mp hv).2
    rw [show encodeList (m :: ms) = encodeMsg m ++ encodeList ms from rfl] at hq
    rcases prefix_append_cases (encodeMsg m) q (encodeList ms) hq with
      ⟨q2, hq2, hpre2⟩ | ⟨hpre2, hne2⟩
    · obtain ⟨ms1, ms2, p, h1, h2, h3⟩ := ihms q2 hvs hpre2
      refine ⟨m :: ms1, ms2, p, by rw [h1]; rfl, ?_, h3⟩
      rw [hq2, h2]
      simp [encodeList]
    · exact ⟨[], m :: ms, q, rfl, by simp [encodeList], Or.inr ⟨m, ms, rfl, hpre2, hne2⟩⟩

/-! ## Sequencing helpers for the client model -/

theorem encodeList_append : ∀ (a b : List Msg),
    encodeList (a ++ b) = encodeList a ++ encodeList b := by
  intro a b
  induction a with
  | nil => simp [encodeList]
  | cons m ms ih =>
    rw [List.cons_append, show encodeList (m :: (ms ++ b)) =
      encodeMsg m ++ encodeList (ms ++ b) from rfl, ih,
      show encodeList (m :: ms) = encodeMsg m ++ encodeList ms from rfl,
      List.append_assoc]

theorem validList_append : ∀ (a b : List Msg),
    validList (a ++ b) = (validList a && validList b) := by
  intro a b
  induction a with
  | nil => simp [validList]
  | cons m ms ih =>
    rw [List.cons_append, show validList (m :: (ms ++ b)) =
      (validMsg m && validList (ms ++ b)) from rfl, ih,
      show validList (m :: ms) = (validMsg m && validList ms) from rfl,
      Bool.and_assoc]

theorem encodeList_eq_nil {ms : List Msg} (h : encodeList ms = []) : ms = [] := by
  cases ms with
  | nil => rfl
  | cons m ms =>
    exfalso
    have hp := encodeMsg_length_pos m
    have : (encodeList (m :: ms)).length = 0 := by rw [h]; rfl
    rw [show encodeList (m :: ms) = encodeMsg m ++ encodeList ms from rfl,
      List.length_append] at this
    omega

theorem zip_append_drop : ∀ (msA : List Msg) (ids : List Nat) (msB : List Msg),
    msA.length ≤ ids.length →
    ids.zip (msA ++ msB) = ids.zip msA ++ (ids.drop msA.length).zip msB := by
  intro msA
  induction msA with
  | nil => simp
  | cons m ms ih =>
    intro ids msB hlen
    cases ids with
    | nil => simp at hlen
    | cons i ids =>
      simp only [List.cons_append, List.zip_cons_cons, List.length_cons,
        List.drop_succ_cons]
      rw [ih ids msB (by simp at hlen; omega)]

/-! ## The client state and event handlers of `Base` (src/core/base.ts)

Pending callbacks are identified by issue tokens (`Nat`); a handler invocation
is recorded as `(token, err, message)` mirroring `callback(err, res)`. -/

structure ClientState where
  callbacks : List Nat
  protocol : Protocol

/-- The `parsed.forEach` body of the 'data' handler (lines 163-168):
`(this.callbacks.shift() as callback)(false, message)` for each message, in
order. Returns the invocations made, the remaining queue, and whether a
`shift()` on an empty queue produced an `undefined` that was then invoked. -/
def shiftResolve : List Nat → List Msg → List (Nat × Bool × Msg) × List Nat × Bool
  | cbs, [] => ([], cbs, false)
  | [], _ :: _ => ([], [], true)
  | c :: cbs, msg :: msgs =>
    ((c, false, msg) :: (shiftResolve cbs msgs).1,
      (shiftResolve cbs msgs).2.1, (shiftResolve cbs msgs).2.2)

/-- The socket 'data' handler installed by `init` (lines 160-169): write the
received bytes to the protocol, parse, and invoke one shifted callback per
parsed message with `(false, message)`. -/
def onData (s : ClientState) (data : List Char) :
    ClientState × List (Nat × Bool × Msg) × Bool :=
  (⟨(shiftResolve s.callbacks ((s.protocol.write data).parse).1).2.1,
      ((s.protocol.write data).parse).2⟩,
    (shiftResolve s.callbacks ((s.protocol.write data).parse).1).1,
    (shiftResolve s.callbacks ((s.protocol.write data).parse).1).2.2)

/-- Deliver a sequence of transport chunks through the 'data' handler,
accumulating the callback invocations in order. -/
def feedAll : ClientState → List (List Char) → ClientState × List (Nat × Bool × Msg) × Bool
  | s, [] => (s, [], false)
  | s, c :: cs =>
    ((feedAll (onData s c).1 cs).1,
      (onData s c).2.1 ++ (feedAll (onData s c).1 cs).2.1,
      (onData s c).2.2 || (feedAll (onData s c).1 cs).2.2)

theorem shiftResolve_spec : ∀ (msgs : List Msg) (cbs : List Nat),
    msgs.length ≤ cbs.length →
    shiftResolve cbs msgs =
      ((cbs.zip msgs).map (fun z => (z.1, false, z.2)), cbs.drop msgs.length, false) := by
  intro msgs
  induction msgs with
  | nil =>
    intro cbs _
    cases cbs <;> rfl
  | cons msg msgs ih =>
    intro cbs hlen
    cases cbs with
    | nil => simp at hlen
    | cons c cbs =>
      rw [show shiftResolve (c :: cbs) (msg :: msgs) =
        ((c, false, msg) :: (shiftResolve cbs msgs).1,
          (shiftResolve cbs msgs).2.1, (shiftResolve cbs msgs).2.2) from rfl]
      rw [ih cbs (by simp at hlen; omega)]
      simp

/-- The tail of a reply stream: empty, or a strict prefix of the next reply. -/
def Rem (p : List Char) (ms : List Msg) : Prop :=
  p = [] ∨ ∃ m t, ms = m :: t ∧ p <+: encodeMsg m ∧ p ≠ encodeMsg m

theorem Rem.incomplete {p : List Char} {ms : List Msg} (hr : Rem p ms)
    (hv : validList ms = true) : Incomplete p := by
  rcases hr with rfl | ⟨m, t, rfl, hpre, hne⟩
  · exact Or.inl rfl
  · have hvm : validMsg m = true := by
      rw [show validList (m :: t) = (validMsg m && validList t) from rfl] at hv
      exact ((Bool.and_eq_true _ _).mp hv).1
    exact Or.inr ⟨m, hvm, hpre, hne⟩

/-- FIFO feeding invariant: starting from a queue of pending tokens, a buffer
holding an incomplete tail, and chunks that together complete the encoded
reply stream, every token is invoked exactly once, in order, with `err = false`
and its positionally matching reply; the queue and buffer end empty and no
`undefined` callback is ever invoked. -/
theorem feedAll_inv : ∀ (chunks : List (List Char)) (ms2 : List Msg)
    (ids2 : List Nat) (p : List Char),
    validList ms2 = true → ids2.length = ms2.length →
    Rem p ms2 → p ++ chunks.join = encodeList ms2 →
    feedAll ⟨ids2, ⟨p⟩⟩ chunks =
      (⟨[], ⟨[]⟩⟩, (ids2.zip ms2).map (fun z => (z.1, false, z.2)), false) := by
  intro chunks
  induction chunks with
  | nil =>
    intro ms2 ids2 p hv hlen hrem hjoin
    simp only [List.join_nil, List.append_nil] at hjoin
    subst hjoin
    rcases hrem with hp | ⟨m, t, rfl, hpre, hne⟩
    · have hms : ms2 = [] := encodeList_eq_nil hp
      subst hms
      have : ids2 = [] := List.length_eq_zero.mp (by rw [hlen]; rfl)
      subst this
      rfl
    · exfalso
      have h1 := hpre.length_le
      have h2 : (encodeList (m :: t)).length =
          (encodeMsg m).length + (encodeList t).length := by
        rw [show encodeList (m :: t) = encodeMsg m ++ encodeList t from rfl,
          List.length_append]
      rcases Nat.lt_or_ge (encodeList (m :: t)).length (encodeMsg m).length with hl | hl
      · omega
      · have : encodeList (m :: t) = encodeMsg m :=
          hpre.eq_of_length (by omega)
        exact hne this
  | cons c cs ih =>
    intro ms2 ids2 p hv hlen hrem hjoin
    have hjoin' : (p ++ c) ++ cs.join = encodeList ms2 := by
      rw [List.append_assoc]
      simpa using hjoin
    have hpc : (p ++ c) <+: encodeList ms2 := ⟨cs.join, hjoin'⟩
    obtain ⟨msA, msB, pnew, hsplit, hq, hrest⟩ :=
      encodeList_prefix_decomp ms2 (p ++ c) hv hpc
    subst hsplit
    have hvA : validList msA = true := by
      rw [validList_append] at hv
      exact ((Bool.and_eq_true _ _).mp hv).1
    have hvB : validList msB = true := by
      rw [validList_append] at hv
      exact ((Bool.and_eq_true _ _).mp hv).2
    have hremB : Rem pnew msB := by
      rcases hrest with ⟨_, hp⟩ | ⟨m, t, hms, hpre, hne⟩
      · exact Or.inl hp
      · exact Or.inr ⟨m, t, hms, hpre, hne⟩
    have hincB : Incomplete pnew := hremB.incomplete hvB
    have hlenA : msA.length ≤ ids2.length := by
      rw [hlen, List.length_append]
      omega
    have hparse : Protocol.parse ⟨p ++ c⟩ = (msA, ⟨pnew⟩) := by
      have hF : msA.length < (encodeList msA ++ pnew).length + 1 := by
        have h1 := encodeList_length_ge msA
        rw [List.length_append]
        omega
      have hdrain := parseAux_drain msA pnew ((encodeList msA ++ pnew).length + 1)
        hvA hincB hF
      rw [Protocol.parse]
      rw [show (⟨p ++ c⟩ : Protocol).buffer = p ++ c from rfl, hq, hdrain]
    have honData : onData ⟨ids2, ⟨p⟩⟩ c =
        (⟨ids2.drop msA.length, ⟨pnew⟩⟩,
          (ids2.zip msA).map (fun z => (z.1, false, z.2)), false) := by
      rw [onData]
      have hw : (⟨ids2, ⟨p⟩⟩ : ClientState).protocol.write c = ⟨p ++ c⟩ := rfl
      rw [hw, hparse]
      rw [shiftResolve_spec msA ids2 hlenA]
    have hjoinB : pnew ++ cs.join = encodeList msB := by
      rw [encodeList_append] at hjoin'
      rw [hq, List.append_assoc] at hjoin'
      exact List.append_cancel_left hjoin'
    have hlenB : (ids2.drop msA.length).length = msB.length := by
      rw [List.length_drop, hlen, List.length_append]
      omega
    have hrec := ih msB (ids2.drop msA.length) pnew hvB hlenB hremB hjoinB
    rw [show feedAll ⟨ids2, ⟨p⟩⟩ (c :: cs) =
      ((feedAll (onData ⟨ids2, ⟨p⟩⟩ c).1 cs).1,
        (onData ⟨ids2, ⟨p⟩⟩ c).2.1 ++ (feedAll (onData ⟨ids2, ⟨p⟩⟩ c).1 cs).2.1,
        (onData ⟨ids2, ⟨p⟩⟩ c).2.2 || (feedAll (onData ⟨ids2, ⟨p⟩⟩ c).1 cs).2.2) from rfl,
      honData]
    simp only [hrec]
    rw [← List.map_append, ← zip_append_drop msA ids2 msB hlenA]
    rfl

/-! ## Listener registry and lifecycle handlers of `Base` -/

/-- The four private listener slots of `Base` (`handle_connect`,
`handle_timeout`, `handle_error`, `handle_close`), each holding at most one
listener, identified by a token. -/
structure Listeners where
  connect : Option Nat
  timeout : Option Nat
  error : Option Nat
  close : Option Nat

/-- `Base.on` (src/core/base.ts lines 94-110): a switch on the event name
storing the listener in the matching slot, throwing `"event not found"` for
any other name. -/
def Listeners.on (ls : Listeners) (event : List Char) (listener : Nat) :
    Except (List Char) Listeners :=
  if event = "connect".toList then .ok { ls with connect := some listener }
  else if event = "timeout".toList then .ok { ls with timeout := some listener }
  else if event = "error".toList then .ok { ls with error := some listener }
  else if event = "close".toList then .ok { ls with close := some listener }
  else .error "event not found".toList

/-- The socket 'close' handler installed by `init` (lines 155-159): invoke the
registered close listener, if any, with the `had_error` flag. It touches
neither the pending queue nor the protocol buffer and resolves no pending
callback. Returns the (unchanged) client state, the callback invocations made
(none), and the close-listener invocation, if one happened. -/
def onClose (ls : Listeners) (s : ClientState) (had_error : Bool) :
    ClientState × List (Nat × Bool × Msg) × Option (Nat × Bool) :=
  (s, [], ls.close.map (fun l => (l, had_error)))

/-! ## Command arguments and the request encoder -/

/-- A command parameter as passed to `Base.command`: a string, a number, or a
value of an unsupported type (the encode-time usage error of the spec). -/
inductive Param where
  | str (s : List Char)
  | int (n : Int)
  | invalid
deriving DecidableEq

/-- Whether a parameter has an encodable type. -/
def Param.ok : Param → Bool
  | .invalid => false
  | _ => true

/-- Modelled from the spec: one length-prefixed bulk string per argument,
integers converted to their decimal text form (`Protocol.encode`,
`src/core/protocol.ts`, not present under the reviewed sources). -/
def encodeParam : Param → List Char
  | .str s => '$' :: (natDigits s.length ++ CRLF ++ s ++ CRLF)
  | .int n => '$' :: (natDigits (intDigits n).length ++ CRLF ++ intDigits n ++ CRLF)
  | .invalid => []

/-- Concatenated encodings of the arguments, in order. -/
def joinParams : List Param → List Char
  | [] => []
  | p :: ps => encodeParam p ++ joinParams ps

/-- Modelled from the spec: `Protocol.encode` — an array header announcing the
argument count followed by one bulk string per argument; a malformed input
type is rejected at the boundary, before encoding. -/
def encodeRequest (params : List Param) : Except (List Char) (List Char) :=
  if params.all Param.ok then
    .ok ('*' :: (natDigits params.length ++ CRLF ++ joinParams params))
  else .error "invalid argument type".toList

example : encodeRequest [Param.str ['G', 'E', 'T'], Param.str ['a']] =
    .ok ('*' :: '2' :: '\r' :: '\n' :: '$' :: '3' :: '\r' :: '\n' :: 'G' :: 'E' :: 'T' ::
      '\r' :: '\n' :: '$' :: '1' :: '\r' :: '\n' :: 'a' :: '\r' :: '\n' :: []) := rfl

/-! ## `Base.command` -/

/-- The outcome of a `command` invocation: the promise is pending a reply, or
was rejected synchronously by an encode-time throw. -/
inductive CmdResult where
  | issued
  | rejected (e : List Char)
deriving DecidableEq

/-- Observable actions of one `command` call, in program order. -/
inductive Ev where
  | push (id : Nat)
  | write (bytes : List Char)
deriving DecidableEq

/-- `Base.command` (src/core/base.ts lines 80-87): inside the promise
executor, first push the settling callback onto `this.callbacks`, then
evaluate `this.protocol.encode(...parameters)` and write the result to the
socket. An encode-time throw therefore happens after the push and before any
write, and rejects the returned promise. -/
def command (s : ClientState) (id : Nat) (params : List Param) :
    ClientState × CmdResult × List Ev :=
  match encodeRequest params with
  | .ok bytes =>
    ({ s with callbacks := s.callbacks ++ [id] }, .issued, [.push id, .write bytes])
  | .error e =>
    ({ s with callbacks := s.callbacks ++ [id] }, .rejected e, [.push id])

/-! ## `Base.auth` and the constructor's credential dispatch -/

/-- The credential fields of the constructor's options object. -/
structure ConnectOptions where
  username : Option (List Char)
  password : Option (List Char)

/-- `Base.auth` (src/core/base.ts lines 112-134): the single `AUTH` command
shape selected by which credentials are strings — `AUTH user pass`, `AUTH
user`, or `AUTH pass`; no credentials at all is an error and no command is
issued. -/
def authParams (username password : Option (List Char)) :
    Option (List (List Char)) :=
  match username, password with
  | some u, some p => some ["AUTH".toList, u, p]
  | some u, none => some ["AUTH".toList, u]
  | none, some p => some ["AUTH".toList, p]
  | none, none => none

/-- The constructor's credential dispatch (src/core/base.ts lines 69-78): a
string username forwards both options to `auth`; otherwise a string password
alone is forwarded; otherwise no authentication traffic is issued. The result
is the list of command invocations the constructor performs before any caller
traffic. -/
def constructorAuthCommands (o : ConnectOptions) : List (List (List Char)) :=
  match o.username with
  | some u => (authParams (some u) o.password).toList
  | none =>
    match o.password with
    | some p => (authParams none (some p)).toList
    | none => []

/-! ## Parse drain at the Protocol level -/

theorem parse_drain (ms : List Msg) (p : List Char) (hv : validList ms = true)
    (hinc : Incomplete p) : Protocol.parse ⟨encodeList ms ++ p⟩ = (ms, ⟨p⟩) := by
  have hF : ms.length < (encodeList ms ++ p).length + 1 := by
    have := encodeList_length_ge ms
    rw [List.length_append]
    omega
  rw [Protocol.parse,
    show (⟨encodeList ms ++ p⟩ : Protocol).buffer = encodeList ms ++ p from rfl,
    parseAux_drain ms p _ hv hinc hF]

/-! ## Claim theorems -/

/-- C1: for every sequence of commands issued on one connection (pending
tokens `ids`, in issue order), if the server sends exactly one reply per
command in issue order (`ms`, one reply per token), then however the transport
fragments the reply bytes into 'data' chunks, every token's callback is
invoked exactly once, in order, with the reply whose position in the decoded
stream equals the token's issue position (FIFO pairing), each with a success
flag; the queue and buffer end empty. -/
theorem claim_C1_fifo_pairing (ids : List Nat) (ms : List Msg)
    (chunks : List (List Char)) (hlen : ids.length = ms.length)
    (hv : validList ms = true) (hchunks : chunks.join = encodeList ms) :
    feedAll ⟨ids, ⟨[]⟩⟩ chunks =
      (⟨[], ⟨[]⟩⟩, (ids.zip ms).map (fun z => (z.1, false, z.2)), false) :=
  feedAll_inv chunks ms ids [] hv hlen (Or.inl rfl) (by simpa using hchunks)

theorem claim_C1_fifo_pairing_witness :
    ([0, 1] : List Nat).length = [Msg.simple ['O'], Msg.integer 7].length ∧
    validList [Msg.simple ['O'], Msg.integer 7] = true ∧
    ([['+', 'O', '\r'], ['\n', ':', '7', '\r', '\n']] : List (List Char)).join =
      encodeList [Msg.simple ['O'], Msg.integer 7] ∧
    feedAll ⟨[0, 1], ⟨[]⟩⟩ [['+', 'O', '\r'], ['\n', ':', '7', '\r', '\n']] =
      (⟨[], ⟨[]⟩⟩, [(0, false, Msg.simple ['O']), (1, false, Msg.integer 7)], false) :=
  ⟨rfl, rfl, rfl,
    claim_C1_fifo_pairing [0, 1] [Msg.simple ['O'], Msg.integer 7]
      [['+', 'O', '\r'], ['\n', ':', '7', '\r', '\n']] rfl rfl rfl⟩

/-- The property asserted by claim C2 at a start state with pending tokens
`cbs` and one 'data' event: every callback invocation whose message is the
`Error` variant carries a failure flag (`err = true`). -/
def errorRepliesFailClaim (cbs : List Nat) (data : List Char) : Prop :=
  ∀ r ∈ (onData ⟨cbs, ⟨[]⟩⟩ data).2.1, r.2.2.isError = true → r.2.1 = true

/-- C2 counterexample: one pending command answered by the error reply
`-ERR x\r\n` — the handler invokes the callback with `(false, message)`, a
success flag, not the failure the claim asserts: the 'data' handler of
`src/core/base.ts` (line 164) passes `false` unconditionally. -/
theorem claim_C2_counterexample :
    ¬ errorRepliesFailClaim [0]
      ('-' :: 'E' :: 'R' :: 'R' :: ' ' :: 'x' :: '\r' :: '\n' :: []) := by
  intro h
  have hres : (onData ⟨[0], ⟨[]⟩⟩
      ('-' :: 'E' :: 'R' :: 'R' :: ' ' :: 'x' :: '\r' :: '\n' :: [])).2.1 =
      [(0, false, Msg.error ['E', 'R', 'R', ' ', 'x'])] := rfl
  have := h (0, false, Msg.error ['E', 'R', 'R', ' ', 'x'])
    (by rw [hres]; exact List.mem_singleton_self _) rfl
  exact Bool.noConfusion this

/-- C2 amended: for every decoded reply delivered by a 'data' event, the
oldest pending entry is popped and invoked as a success (`err = false`)
carrying the message — whether or not the message is an `Error` variant; a
server error reply is thus delivered (as a resolved value, not a failure) to
exactly the one handle it answers, one entry per reply, leaving the other
pending handles unaffected. -/
theorem claim_C2_amended (s : ClientState) (data : List Char)
    (hn : (((s.protocol.write data).parse).1).length ≤ s.callbacks.length) :
    (onData s data).2.1 =
      (s.callbacks.zip ((s.protocol.write data).parse).1).map
        (fun z => (z.1, false, z.2)) ∧
    (onData s data).1.callbacks =
      s.callbacks.drop (((s.protocol.write data).parse).1).length := by
  rw [onData]
  rw [shiftResolve_spec _ _ hn]
  exact ⟨rfl, rfl⟩

theorem claim_C2_amended_witness :
    ((((⟨[4, 5], ⟨[]⟩⟩ : ClientState).protocol.write
        ('-' :: 'E' :: '\r' :: '\n' :: [])).parse).1).length ≤
      ([4, 5] : List Nat).length ∧
    ((onData ⟨[4, 5], ⟨[]⟩⟩ ('-' :: 'E' :: '\r' :: '\n' :: [])).2.1 =
      ((([4, 5] : List Nat).zip
        (((⟨[4, 5], ⟨[]⟩⟩ : ClientState).protocol.write
          ('-' :: 'E' :: '\r' :: '\n' :: [])).parse).1).map
        (fun z => (z.1, false, z.2))) ∧
    (onData ⟨[4, 5], ⟨[]⟩⟩ ('-' :: 'E' :: '\r' :: '\n' :: [])).1.callbacks =
      ([4, 5] : List Nat).drop
        ((((⟨[4, 5], ⟨[]⟩⟩ : ClientState).protocol.write
          ('-' :: 'E' :: '\r' :: '\n' :: [])).parse).1).length) :=
  ⟨by decide, claim_C2_amended ⟨[4, 5], ⟨[]⟩⟩ _ (by decide)⟩

/-- The property asserted by claim C3 for a transport close with pending
tokens `cbs`: every pending entry is resolved (one failure resolution per
entry) and the queue is emptied. -/
def closeDrainsClaim (ls : Listeners) (cbs : List Nat) (flag : Bool) : Prop :=
  (onClose ls ⟨cbs, ⟨[]⟩⟩ flag).1.callbacks = [] ∧
    ((onClose ls ⟨cbs, ⟨[]⟩⟩ flag).2.1).length = cbs.length

/-- C3 counterexample: the transport closes with three commands pending — the
'close' handler of `src/core/base.ts` (lines 155-159) only invokes the close
listener; it resolves none of the three pending entries and the queue still
holds all three. -/
theorem claim_C3_counterexample :
    ¬ closeDrainsClaim ⟨none, none, none, none⟩ [0, 1, 2] true := by
  intro h
  exact absurd h.1 (by decide)

/-- C3 amended: when the transport closes, the registered close listener (if
any) is invoked with the `had_error` flag, and nothing else happens: no
pending entry is resolved and the pending queue and decoder state are left
untouched — pending handles are left unresolved (they hang). -/
theorem claim_C3_amended (ls : Listeners) (s : ClientState) (flag : Bool) :
    (onClose ls s flag).1 = s ∧ (onClose ls s flag).2.1 = [] ∧
      (onClose ls s flag).2.2 = ls.close.map (fun l => (l, flag)) :=
  ⟨rfl, rfl, rfl⟩

/-- The property asserted by claim C4: a usage error detected at encode time
leaves the pending queue exactly as it was before the call. -/
def usageErrorPreservesQueueClaim (s : ClientState) (id : Nat)
    (params : List Param) : Prop :=
  params.all Param.ok = false → (command s id params).1.callbacks = s.callbacks

/-- C4 counterexample: calling `command` with a malformed argument on an empty
queue — `Base.command` pushes the callback before evaluating
`this.protocol.encode(...)`, so after the encode-time throw the queue holds
the orphaned entry and differs from the queue before the call. -/
theorem claim_C4_counterexample :
    ¬ usageErrorPreservesQueueClaim ⟨[], ⟨[]⟩⟩ 7 [Param.invalid] := by
  intro h
  exact absurd (h (by decide)) (by decide)

/-- C4 amended: a usage error at encode time rejects the call synchronously
and nothing is written to the transport, but only after the pending entry was
appended: the queue after the failed call equals the queue before it plus the
orphaned new entry, desynchronizing the queue. -/
theorem claim_C4_amended (s : ClientState) (id : Nat) (params : List Param)
    (h : params.all Param.ok = false) :
    (command s id params).1.callbacks = s.callbacks ++ [id] ∧
    (command s id params).2.1 = .rejected "invalid argument type".toList ∧
    (command s id params).2.2 = [.push id] := by
  have he : encodeRequest params = .error "invalid argument type".toList := by
    rw [encodeRequest]
    simp [h]
  rw [command, he]
  exact ⟨rfl, rfl, rfl⟩

theorem claim_C4_amended_witness :
    ([Param.invalid].all Param.ok = false) ∧
    ((command ⟨[9], ⟨[]⟩⟩ 3 [Param.invalid]).1.callbacks = [9] ++ [3] ∧
      (command ⟨[9], ⟨[]⟩⟩ 3 [Param.invalid]).2.1 =
        .rejected "invalid argument type".toList ∧
      (command ⟨[9], ⟨[]⟩⟩ 3 [Param.invalid]).2.2 = [.push 3]) :=
  ⟨by decide, claim_C4_amended ⟨[9], ⟨[]⟩⟩ 3 [Param.invalid] (by decide)⟩

/-- C5: in `Base.command`, the queue append happens strictly before the
transport write: in the action trace of any call, every write event is
preceded by the push event of that call's pending entry, so a reply can never
be decoded before its handler is registered. -/
theorem claim_C5_push_before_write (s : ClientState) (id : Nat)
    (params : List Param) (k : Nat) (bytes : List Char)
    (h : ((command s id params).2.2)[k]? = some (.write bytes)) :
    ∃ j, j < k ∧ ((command s id params).2.2)[j]? = some (.push id) := by
  rcases he : encodeRequest params with e | b
  · rw [command, he] at h ⊢
    match k, h with
    | 0, h => exact absurd (Option.some.inj h) (by intro hc; cases hc)
    | k + 1, h => simp at h
  · rw [command, he] at h ⊢
    match k, h with
    | 0, h => exact absurd (Option.some.inj h) (by intro hc; cases hc)
    | 1, h => exact ⟨0, by omega, rfl⟩
    | k + 2, h => simp at h

theorem claim_C5_push_before_write_witness :
    (((command ⟨[], ⟨[]⟩⟩ 0 [Param.str ['P', 'I', 'N', 'G']]).2.2)[1]? =
      some (.write ('*' :: '1' :: '\r' :: '\n' :: '$' :: '4' :: '\r' :: '\n' ::
        'P' :: 'I' :: 'N' :: 'G' :: '\r' :: '\n' :: []))) ∧
    (∃ j, j < 1 ∧ ((command ⟨[], ⟨[]⟩⟩ 0 [Param.str ['P', 'I', 'N', 'G']]).2.2)[j]? =
      some (.push 0)) :=
  ⟨rfl, claim_C5_push_before_write ⟨[], ⟨[]⟩⟩ 0 [Param.str ['P', 'I', 'N', 'G']] 1 _ rfl⟩

/-- C6: for every sequence of complete encoded replies and every byte offset
at which the byte stream is split into two decoder writes, draining yields
exactly the same messages, in order, as feeding all bytes in a single write;
the first parse consumes exactly the bytes of the complete messages it
returns — an incomplete trailing message consumes nothing and stays buffered,
and decoding resumes from that position on the second chunk, ending with all
messages decoded and an empty buffer. -/
theorem claim_C6_split_invariance (ms : List Msg) (i : Nat)
    (hv : validList ms = true) :
    Protocol.parse (Protocol.write ⟨[]⟩ (encodeList ms)) = (ms, ⟨[]⟩) ∧
    (Protocol.parse (Protocol.write ⟨[]⟩ ((encodeList ms).take i))).1 ++
      (Protocol.parse (Protocol.write
        (Protocol.parse (Protocol.write ⟨[]⟩ ((encodeList ms).take i))).2
        ((encodeList ms).drop i))).1 = ms ∧
    (Protocol.parse (Protocol.write
        (Protocol.parse (Protocol.write ⟨[]⟩ ((encodeList ms).take i))).2
        ((encodeList ms).drop i))).2.buffer = [] ∧
    (encodeList ms).take i =
      encodeList (Protocol.parse (Protocol.write ⟨[]⟩ ((encodeList ms).take i))).1 ++
      (Protocol.parse (Protocol.write ⟨[]⟩ ((encodeList ms).take i))).2.buffer := by
  obtain ⟨ms1, ms2, p, hsplit, hq, hrest⟩ :=
    encodeList_prefix_decomp ms ((encodeList ms).take i) hv (List.take_prefix i _)
  have hv1 : validList ms1 = true := by
    rw [hsplit, validList_append] at hv
    exact ((Bool.and_eq_true _ _).mp hv).1
  have hv2 : validList ms2 = true := by
    rw [hsplit, validList_append] at hv
    exact ((Bool.and_eq_true _ _).mp hv).2
  have hvfull : validList ms = true := by
    rw [hsplit, validList_append, hv1, hv2]
    rfl
  have hrem : Rem p ms2 := by
    rcases hrest with ⟨_, hp⟩ | ⟨m, t, hms, hpre, hne⟩
    · exact Or.inl hp
    · exact Or.inr ⟨m, t, hms, hpre, hne⟩
  have hinc : Incomplete p := hrem.incomplete hv2
  have hw1 : Protocol.write ⟨[]⟩ ((encodeList ms).take i) = ⟨encodeList ms1 ++ p⟩ := by
    rw [Protocol.write]
    simp [hq]
  have hp1 : Protocol.parse (Protocol.write ⟨[]⟩ ((encodeList ms).take i)) =
      (ms1, ⟨p⟩) := by
    rw [hw1, parse_drain ms1 p hv1 hinc]
  have hptail : p ++ (encodeList ms).drop i = encodeList ms2 := by
    have h1 : encodeList ms1 ++ (p ++ (encodeList ms).drop i) =
        encodeList ms1 ++ encodeList ms2 := by
      rw [← List.append_assoc, ← hq, List.take_append_drop, hsplit, encodeList_append]
    exact List.append_cancel_left h1
  have hw2 : Protocol.write (⟨p⟩ : Protocol) ((encodeList ms).drop i) =
      ⟨encodeList ms2⟩ := by
    rw [Protocol.write]
    exact congrArg Protocol.mk hptail
  have hp2 : Protocol.parse ⟨encodeList ms2⟩ = (ms2, ⟨[]⟩) := by
    have := parse_drain ms2 [] hv2 (Or.inl rfl)
    rwa [List.append_nil] at this
  refine ⟨?_, ?_, ?_, ?_⟩
  · have hw : Protocol.write ⟨[]⟩ (encodeList ms) = ⟨encodeList ms ++ []⟩ := by
      simp [Protocol.write]
    rw [hw, parse_drain ms [] hvfull (Or.inl rfl)]
  · rw [hp1]
    rw [show (ms1, (⟨p⟩ : Protocol)).2 = ⟨p⟩ from rfl, hw2, hp2]
    exact hsplit.symm
  · rw [hp1]
    rw [show (ms1, (⟨p⟩ : Protocol)).2 = ⟨p⟩ from rfl, hw2, hp2]
  · rw [hp1]
    exact hq

theorem claim_C6_split_invariance_witness :
    validList [Msg.bulk ['h', 'i'], Msg.simple ['A']] = true ∧
    (Protocol.parse (Protocol.write ⟨[]⟩
        (encodeList [Msg.bulk ['h', 'i'], Msg.simple ['A']])) =
      ([Msg.bulk ['h', 'i'], Msg.simple ['A']], ⟨[]⟩) ∧
    (Protocol.parse (Protocol.write ⟨[]⟩
        ((encodeList [Msg.bulk ['h', 'i'], Msg.simple ['A']]).take 5))).1 ++
      (Protocol.parse (Protocol.write
        (Protocol.parse (Protocol.write ⟨[]⟩
          ((encodeList [Msg.bulk ['h', 'i'], Msg.simple ['A']]).take 5))).2
        ((encodeList [Msg.bulk ['h', 'i'], Msg.simple ['A']]).drop 5))).1 =
      [Msg.bulk ['h', 'i'], Msg.simple ['A']] ∧
    (Protocol.parse (Protocol.write
        (Protocol.parse (Protocol.write ⟨[]⟩
          ((encodeList [Msg.bulk ['h', 'i'], Msg.simple ['A']]).take 5))).2
        ((encodeList [Msg.bulk ['h', 'i'], Msg.simple ['A']]).drop 5))).2.buffer = [] ∧
    (encodeList [Msg.bulk ['h', 'i'], Msg.simple ['A']]).take 5 =
      encodeList (Protocol.parse (Protocol.write ⟨[]⟩
        ((encodeList [Msg.bulk ['h', 'i'], Msg.simple ['A']]).take 5))).1 ++
      (Protocol.parse (Protocol.write ⟨[]⟩
        ((encodeList [Msg.bulk ['h', 'i'], Msg.simple ['A']]).take 5))).2.buffer) :=
  ⟨rfl, claim_C6_split_invariance [Msg.bulk ['h', 'i'], Msg.simple ['A']] 5 rfl⟩

/-- C7: the request encoder produces `*<argc>\r\n` followed by, for each
argument in order, `$<len>\r\n<bytes>\r\n`, integers rendered as decimal
text; in particular `SET k v` encodes to
`*3\r\n$3\r\nSET\r\n$1\r\nk\r\n$1\r\nv\r\n`. -/
theorem claim_C7_encoder (params : List Param) (h : params.all Param.ok = true) :
    encodeRequest params =
      .ok ('*' :: (natDigits params.length ++ CRLF ++ joinParams params)) ∧
    encodeRequest [Param.str "SET".toList, Param.str "k".toList,
        Param.str "v".toList] =
      .ok "*3\r\n$3\r\nSET\r\n$1\r\nk\r\n$1\r\nv\r\n".toList ∧
    encodeParam (Param.int (-42)) = "$3\r\n-42\r\n".toList := by
  refine ⟨?_, ?_, ?_⟩
  · rw [encodeRequest, if_pos h]
  · rfl
  · rfl

theorem claim_C7_encoder_witness :
    ([Param.int 10, Param.str ['x']].all Param.ok = true) ∧
    encodeRequest [Param.int 10, Param.str ['x']] =
      .ok ('*' :: (natDigits ([Param.int 10, Param.str ['x']] : List Param).length ++
        CRLF ++ joinParams [Param.int 10, Param.str ['x']])) :=
  ⟨rfl, (claim_C7_encoder [Param.int 10, Param.str ['x']] rfl).1⟩

/-- C8: whenever the connection options contain credential strings, the
constructor performs authentication as exactly one ordinary command call
before any other caller traffic, with the shape selected by which options are
strings: `AUTH user pass` when both are given, `AUTH user` for a username
alone, `AUTH pass` for a password alone, and no auth traffic otherwise; the
core applies no other special-casing. -/
theorem claim_C8_auth_shapes (u p : List Char) :
    constructorAuthCommands ⟨some u, some p⟩ = [["AUTH".toList, u, p]] ∧
    constructorAuthCommands ⟨some u, none⟩ = [["AUTH".toList, u]] ∧
    constructorAuthCommands ⟨none, some p⟩ = [["AUTH".toList, p]] ∧
    constructorAuthCommands ⟨none, none⟩ = [] :=
  ⟨rfl, rfl, rfl, rfl⟩

/-- C9: for every 'data' event, when the decoder returns no more messages
than there are pending callbacks, the unchecked `shift()`-and-call never
invokes an `undefined` value and makes exactly one invocation per message;
but when a decoded reply arrives with no pending callback, the handler
invokes the `undefined` produced by `shift()` as a function (a runtime type
crash) instead of surfacing a typed error. -/
theorem claim_C9_unchecked_pop (s : ClientState) (data : List Char) :
    ((((s.protocol.write data).parse).1).length ≤ s.callbacks.length →
      (onData s data).2.2 = false ∧
      (onData s data).2.1.length = (((s.protocol.write data).parse).1).length) ∧
    (s.callbacks = [] → ((s.protocol.write data).parse).1 ≠ [] →
      (onData s data).2.2 = true) := by
  constructor
  · intro hn
    rw [onData, shiftResolve_spec _ _ hn]
    refine ⟨rfl, ?_⟩
    simp only [List.length_map, List.length_zip]
    omega
  · intro hc hne
    rcases hm : ((s.protocol.write data).parse).1 with _ | ⟨m, msgs⟩
    · exact absurd hm hne
    · rw [onData, hc, hm]
      rfl

theorem claim_C9_unchecked_pop_witness :
    (((((⟨[3], ⟨[]⟩⟩ : ClientState).protocol.write
        ('+' :: 'A' :: '\r' :: '\n' :: [])).parse).1).length ≤
        ([3] : List Nat).length ∧
      ((onData ⟨[3], ⟨[]⟩⟩ ('+' :: 'A' :: '\r' :: '\n' :: [])).2.2 = false ∧
        (onData ⟨[3], ⟨[]⟩⟩ ('+' :: 'A' :: '\r' :: '\n' :: [])).2.1.length =
          ((((⟨[3], ⟨[]⟩⟩ : ClientState).protocol.write
            ('+' :: 'A' :: '\r' :: '\n' :: [])).parse).1).length)) ∧
    (onData ⟨[], ⟨[]⟩⟩ ('+' :: 'A' :: '\r' :: '\n' :: [])).2.2 = true :=
  ⟨⟨by decide,
    (claim_C9_unchecked_pop ⟨[3], ⟨[]⟩⟩ ('+' :: 'A' :: '\r' :: '\n' :: [])).1
      (by decide)⟩,
    (claim_C9_unchecked_pop ⟨[], ⟨[]⟩⟩ ('+' :: 'A' :: '\r' :: '\n' :: [])).2
      rfl (by exact List.cons_ne_nil _ _)⟩

/-- C10: the public `on` method stores the listener (replacing any previous
one) and returns normally for the four event names `connect`, `timeout`,
`error` and `close`, and throws `Error("event not found")` — changing no
listener state — for every other event name. -/
theorem claim_C10_on (ls : Listeners) (l : Nat) (e : List Char) :
    Listeners.on ls "connect".toList l = .ok { ls with connect := some l } ∧
    Listeners.on ls "timeout".toList l = .ok { ls with timeout := some l } ∧
    Listeners.on ls "error".toList l = .ok { ls with error := some l } ∧
    Listeners.on ls "close".toList l = .ok { ls with close := some l } ∧
    (e ≠ "connect".toList → e ≠ "timeout".toList → e ≠ "error".toList →
      e ≠ "close".toList →
      Listeners.on ls e l = .error "event not found".toList) := by
  refine ⟨?_, ?_, ?_, ?_, ?_⟩
  · rw [Listeners.on, if_pos rfl]
  · rw [Listeners.on, if_neg (by decide), if_pos rfl]
  · rw [Listeners.on, if_neg (by decide), if_neg (by decide), if_pos rfl]
  · rw [Listeners.on, if_neg (by decide), if_neg (by decide), if_neg (by decide),
      if_pos rfl]
  · intro h1 h2 h3 h4
    rw [Listeners.on, if_neg h1, if_neg h2, if_neg h3, if_neg h4]

theorem claim_C10_on_witness :
    (("data".toList ≠ "connect".toList) ∧ ("data".toList ≠ "timeout".toList) ∧
      ("data".toList ≠ "error".toList) ∧ ("data".toList ≠ "close".toList)) ∧
    Listeners.on ⟨none, none, none, none⟩ "data".toList 5 =
      .error "event not found".toList :=
  ⟨⟨by decide, by decide, by decide, by decide⟩,
    (claim_C10_on ⟨none, none, none, none⟩ 5 "data".toList).2.2.2.2
      (by decide) (by decide) (by decide) (by decide)⟩
